import Mathlib

/-!
Shallow embedding of the azul-tiles rules engine (tiles, wall, player board,
game state) together with theorems checking the natural-language
specification against it.  Machine integers (`u8`, `u16`) are modelled as
`Nat`: every quantity in play is bounded far below 2^8 (at most 100 tiles
exist, wall bonus scores are bounded by 95), so no wrap-around arithmetic is
reachable and `Nat` is faithful.  The external PRNG (`rand::SmallRng`) is
modelled as an oracle stream of naturals: `random_range(0..total)` reads the
head of the stream modulo `total`, which realises every draw the real PRNG
can make.
-/

namespace AzulTiles

/-- The five tile colours, ordinally indexed 0-4 (`src/tiles.rs`). -/
inductive Tile
  | Blue
  | Yellow
  | Red
  | Black
  | White
deriving DecidableEq, Repr, Fintype

/-- `u8::from(&Tile)`: the ordinal of a tile colour. -/
def Tile.toNat : Tile → Nat
  | .Blue => 0
  | .Yellow => 1
  | .Red => 2
  | .Black => 3
  | .White => 4

/-- `Tile::iter()`: the tiles in declaration order. -/
def Tile.iter : List Tile := [.Blue, .Yellow, .Red, .Black, .White]

/-- A multiset of tiles: per-colour counts (`TileGroup` in `src/tiles.rs`,
`counts: [u8; 5]` indexed by tile ordinal). -/
structure TileGroup where
  blue : Nat
  yellow : Nat
  red : Nat
  black : Nat
  white : Nat
deriving DecidableEq, Repr

namespace TileGroup

/-- Read the count stored for one colour (`self.counts[tile as usize]`). -/
def get (tg : TileGroup) : Tile → Nat
  | .Blue => tg.blue
  | .Yellow => tg.yellow
  | .Red => tg.red
  | .Black => tg.black
  | .White => tg.white

/-- Write the count stored for one colour. -/
def set (tg : TileGroup) : Tile → Nat → TileGroup
  | .Blue, n => { tg with blue := n }
  | .Yellow, n => { tg with yellow := n }
  | .Red, n => { tg with red := n }
  | .Black, n => { tg with black := n }
  | .White, n => { tg with white := n }

/-- `TileGroup::new_bag`: 20 tiles of each colour. -/
def new_bag : TileGroup := ⟨20, 20, 20, 20, 20⟩

/-- `TileGroup::new_empty`. -/
def new_empty : TileGroup := ⟨0, 0, 0, 0, 0⟩

/-- `TileGroup::empty`: return the current contents and the zeroed group
(`&mut self` receiver split into the two components). -/
def empty (tg : TileGroup) : TileGroup × TileGroup := (tg, new_empty)

/-- `TileGroup::total`. -/
def total (tg : TileGroup) : Nat :=
  tg.blue + tg.yellow + tg.red + tg.black + tg.white

/-- `TileGroup::take_tile`: remove and return all tiles of one colour. -/
def take_tile (tg : TileGroup) (tile : Tile) : Nat × TileGroup :=
  (tg.get tile, tg.set tile 0)

/-- `TileGroup::add_tile`. -/
def add_tile (tg : TileGroup) (tile : Tile) : TileGroup :=
  tg.set tile (tg.get tile + 1)

/-- `TileGroup::add_tiles`. -/
def add_tiles (tg : TileGroup) (tile : Tile) (count : Nat) : TileGroup :=
  tg.set tile (tg.get tile + count)

/-- `AddAssign for TileGroup`: add the other group's counts into this one. -/
def merge (tg other : TileGroup) : TileGroup :=
  ⟨tg.blue + other.blue, tg.yellow + other.yellow, tg.red + other.red,
   tg.black + other.black, tg.white + other.white⟩

/-- The loop body of `TileGroup::random_tile`: walk the `(count, tile)` pairs
in `Tile` order accumulating the running sum and return the first tile whose
cumulative count exceeds `n`.  The final `none` corresponds to the
`unreachable!()` arm, hit only when `n` is at least the group's total. -/
def pick (tg : TileGroup) (n : Nat) : Option Tile :=
  if n < tg.blue then some .Blue
  else if n < tg.blue + tg.yellow then some .Yellow
  else if n < tg.blue + tg.yellow + tg.red then some .Red
  else if n < tg.blue + tg.yellow + tg.red + tg.black then some .Black
  else if n < tg.blue + tg.yellow + tg.red + tg.black + tg.white then some .White
  else none

/-- `TileGroup::random_tile`: draw one tile with probability proportional to
its remaining count.  The PRNG is an oracle stream; `rng.random_range(0..total)`
is modelled as the head of the stream modulo `total` (consumed only when the
group is non-empty, as in the source). -/
def random_tile (tg : TileGroup) (rng : List Nat) :
    Option Tile × TileGroup × List Nat :=
  let t := tg.total
  if t = 0 then (none, tg, rng)
  else
    let n := rng.headD 0 % t
    match tg.pick n with
    | some tile => (some tile, tg.set tile (tg.get tile - 1), rng.tail)
    | none => (none, tg, rng.tail)

theorem total_set_get (tg : TileGroup) (t : Tile) (n : Nat) :
    (tg.set t n).total + tg.get t = tg.total + n := by
  cases t <;> simp [set, get, total] <;> omega

theorem get_set_self (tg : TileGroup) (t : Tile) (n : Nat) :
    (tg.set t n).get t = n := by
  cases t <;> simp [set, get]

theorem get_set_other (tg : TileGroup) (t t' : Tile) (n : Nat) (h : t' ≠ t) :
    (tg.set t n).get t' = tg.get t' := by
  cases t <;> cases t' <;> simp_all [set, get]

theorem total_add_tiles (tg : TileGroup) (t : Tile) (c : Nat) :
    (tg.add_tiles t c).total = tg.total + c := by
  cases t <;> simp [add_tiles, set, get, total] <;> omega

theorem total_add_tile (tg : TileGroup) (t : Tile) :
    (tg.add_tile t).total = tg.total + 1 := by
  cases t <;> simp [add_tile, set, get, total] <;> omega

theorem total_merge (a b : TileGroup) :
    (a.merge b).total = a.total + b.total := by
  simp [merge, total]; omega

theorem total_take_tile (tg : TileGroup) (t : Tile) :
    (tg.take_tile t).2.total + (tg.take_tile t).1 = tg.total := by
  cases t <;> simp [take_tile, set, get, total] <;> omega

theorem pick_pos (tg : TileGroup) (n : Nat) (t : Tile)
    (h : tg.pick n = some t) : 0 < tg.get t := by
  unfold pick at h
  split_ifs at h <;> (injection h with h; subst h; simp only [get]; omega)

/-- Drawing a tile removes exactly one tile from the group. -/
theorem random_tile_some_total (tg : TileGroup) (rng : List Nat) (t : Tile)
    (tg' : TileGroup) (rng' : List Nat)
    (h : tg.random_tile rng = (some t, tg', rng')) :
    tg'.total + 1 = tg.total := by
  by_cases h0 : tg.total = 0
  · simp [random_tile, h0] at h
  · simp only [random_tile, if_neg h0] at h
    cases hp : tg.pick (rng.headD 0 % tg.total) with
    | none => rw [hp] at h; simp at h
    | some t0 =>
      rw [hp] at h
      have hpos := pick_pos tg _ t0 hp
      simp only [Prod.mk.injEq, Option.some.injEq] at h
      obtain ⟨rfl, rfl, rfl⟩ := h
      have := total_set_get tg t0 (tg.get t0 - 1)
      omega

/-- A failed draw leaves the group unchanged. -/
theorem random_tile_none_group (tg : TileGroup) (rng : List Nat)
    (tg' : TileGroup) (rng' : List Nat)
    (h : tg.random_tile rng = (none, tg', rng')) : tg' = tg := by
  by_cases h0 : tg.total = 0
  · simp [random_tile, h0] at h
    exact h.1.symm
  · simp only [random_tile, if_neg h0] at h
    cases hp : tg.pick (rng.headD 0 % tg.total) <;> rw [hp] at h <;> simp_all

end TileGroup

/-- Pattern-line / wall row indices (`RowIndex` in `src/playerboard/wall.rs`). -/
inductive RowIndex
  | One
  | Two
  | Three
  | Four
  | Five
deriving DecidableEq, Repr, Fintype

namespace RowIndex

/-- `u8::from(&RowIndex)` / `usize::from(&RowIndex)`. -/
def toNat : RowIndex → Nat
  | .One => 0
  | .Two => 1
  | .Three => 2
  | .Four => 3
  | .Five => 4

/-- `RowIndex::iter()`. -/
def iter : List RowIndex := [.One, .Two, .Three, .Four, .Five]

/-- `RowIndex::capacity`: how many tiles fit in this row. -/
def capacity : RowIndex → Nat
  | .One => 1
  | .Two => 2
  | .Three => 3
  | .Four => 4
  | .Five => 5

/-- The private duplicate `RowIndex::row_capacity` in `src/playerboard/mod.rs`. -/
def row_capacity : RowIndex → Nat
  | .One => 1
  | .Two => 2
  | .Three => 3
  | .Four => 4
  | .Five => 5

/-- `RowIndex::tile_column`: the fixed wall column of a tile in this row,
`(u8::from(self) + u8::from(tile)) % 5` (the `ColumnIndex` is modelled by the
natural number it wraps). -/
def tile_column (r : RowIndex) (tile : Tile) : Nat :=
  (r.toNat + tile.toNat) % 5

end RowIndex

/-- The published wall colour reference table (`WALL_COLOURS`). -/
def WALL_COLOURS : List (List Tile) :=
  [[.Blue, .Yellow, .Red, .Black, .White],
   [.White, .Blue, .Yellow, .Red, .Black],
   [.Black, .White, .Blue, .Yellow, .Red],
   [.Red, .Black, .White, .Blue, .Yellow],
   [.Yellow, .Red, .Black, .White, .Blue]]

/-- A player's 5x5 wall (`Wall([[Option<Tile>; 5]; 5])`).  The grid is a
function of the two indices; only indices 0-4 are ever used. -/
structure Wall where
  cells : Nat → Nat → Option Tile

/-- Count a maximal run of occupied cells at indices `i-1, i-2, ...`, stopping
at the first empty cell: the `for i in (0..i).rev() { ... break ... }` loops of
`Wall::score_tile`. -/
def scanNeg (occ : Nat → Bool) : Nat → Nat
  | 0 => 0
  | i + 1 => if occ i then scanNeg occ i + 1 else 0

/-- Count a maximal run of occupied cells at indices `i, i+1, ..., 4`, stopping
at the first empty cell, by structural recursion on the number of remaining
indices. -/
def scanPosAux (occ : Nat → Bool) (i : Nat) : Nat → Nat
  | 0 => 0
  | fuel + 1 => if occ i then scanPosAux occ (i + 1) fuel + 1 else 0

/-- The `for i in i..5 { ... break ... }` loops of `Wall::score_tile`. -/
def scanPos (occ : Nat → Bool) (i : Nat) : Nat :=
  scanPosAux occ i (5 - i)

namespace Wall

/-- The empty wall (`Wall::default()`). -/
def default : Wall := ⟨fun _ _ => none⟩

/-- `Wall::cell_available`: the fixed cell for `(row, tile)` is unoccupied. -/
def cell_available (w : Wall) (row : RowIndex) (tile : Tile) : Bool :=
  (w.cells row.toNat (row.tile_column tile)).isNone

/-- `Wall::place_tile`: write the tile into its fixed cell (no validity
check). -/
def place_tile (w : Wall) (row : RowIndex) (tile : Tile) : Wall :=
  ⟨fun i j =>
    if i = row.toNat ∧ j = row.tile_column tile then some tile
    else w.cells i j⟩

/-- `Wall::score_tile`: the score of placing a tile at its fixed cell, from
the column run (up + down) and the row run (left + right), each `+1` when
non-zero, with an isolated tile scoring 1. -/
def score_tile (w : Wall) (row : RowIndex) (tile : Tile) : Nat :=
  let col := row.tile_column tile
  let r := row.toNat
  let col_run := scanNeg (fun i => (w.cells i col).isSome) r
      + scanPos (fun i => (w.cells i col).isSome) (r + 1)
  let col_score := if 0 < col_run then col_run + 1 else 0
  let row_run := scanNeg (fun j => (w.cells r j).isSome) col
      + scanPos (fun j => (w.cells r j).isSome) (col + 1)
  let row_score := if 0 < row_run then row_run + 1 else 0
  let score := col_score + row_score
  if score = 0 then 1 else score

/-- `Wall::score`: the aggregate wall score, 2 per full row, 7 per full
column, 10 per fully represented colour. -/
def score (w : Wall) : Nat :=
  2 * ((List.range 5).filter
        (fun r => (List.range 5).all (fun c => (w.cells r c).isSome))).length
  + 7 * ((List.range 5).filter
        (fun c => RowIndex.iter.all (fun r => (w.cells r.toNat c).isSome))).length
  + 10 * (Tile.iter.filter
        (fun t => RowIndex.iter.all
          (fun r => (w.cells r.toNat (r.tile_column t)).isSome))).length

/-- `Wall::has_full_row`. -/
def has_full_row (w : Wall) : Bool :=
  (List.range 5).any (fun r => (List.range 5).all (fun c => (w.cells r c).isSome))

/-- `Wall::tile_count`: the number of occupied cells. -/
def tile_count (w : Wall) : Nat :=
  (((List.range 5).flatMap (fun r => (List.range 5).map (fun c => w.cells r c))).filter
    (fun t => t.isSome)).length

/-- Modelled from the spec: `Wall::place_and_score_tile` is called by
`PlayerBoard::predict_score` but its definition is not among the provided
source files.  Per the spec's description of `predict_score` ("simulate moving
every currently-full row onto a scratch copy of the wall, sum single-placement
scores"), it returns the single-placement score of the tile against the
current wall and the wall with the tile placed. -/
def place_and_score_tile (w : Wall) (row : RowIndex) (tile : Tile) :
    Wall × Nat :=
  (w.place_tile row tile, w.score_tile row tile)

end Wall

/-- A pattern line (`Row(Option<(Tile, u8)>)` in `src/playerboard/mod.rs`):
either empty or a tile colour with a count. -/
abbrev Row := Option (Tile × Nat)

/-- Destination of a move: a pattern row or the floor
(`Destination` in `src/gamestate.rs`). -/
inductive Destination
  | Row (row : RowIndex)
  | Floor
deriving DecidableEq, Repr

/-- A player's board (`PlayerBoard` in `src/playerboard/mod.rs`).  The five
pattern lines `rows: [Row; 5]` are modelled as a total function from the row
index. -/
structure PlayerBoard where
  wall : Wall
  floor : TileGroup
  first_player_tile : Bool
  rows : RowIndex → Row
  score : Nat
  predicted_score : Nat

/-- `floor_score`: the floor penalty from a floor's contents plus the
first-player token if held. -/
def floor_score (tiles : TileGroup) (fp : Bool) : Nat :=
  let total := tiles.total + if fp then 1 else 0
  match total with
  | 0 => 0
  | 1 => 1
  | 2 => 2
  | 3 => 4
  | 4 => 6
  | 5 => 8
  | 6 => 11
  | _ => 14

namespace PlayerBoard

/-- `PlayerBoard::default()`: empty wall, floor and rows, no token, zero
scores. -/
def default : PlayerBoard :=
  ⟨Wall.default, TileGroup.new_empty, false, fun _ => none, 0, 0⟩

/-- `PlayerBoard::can_play_tile`: whether `count` tiles of `tile` may be
played into `row`, and if so how many land there and the row's resulting
count. -/
def can_play_tile (b : PlayerBoard) (row : RowIndex) (tile : Tile)
    (count : Nat) : Option (Nat × Nat) :=
  match b.rows row with
  | some (row_tile, row_count) =>
    if row_tile = tile then
      if row_count < row.row_capacity then
        let total := min (row_count + count) row.row_capacity
        some (total - row_count, total)
      else none
    else none
  | none =>
    if b.wall.cell_available row tile then some (count, count) else none

/-- `PlayerBoard::place_tiles_in_row`: unchecked placement into a row, with
overflow beyond the row capacity spilling to the floor. -/
def place_tiles_in_row (b : PlayerBoard) (row_ind : RowIndex) (tile : Tile)
    (count : Nat) : PlayerBoard :=
  let capacity := row_ind.row_capacity
  match b.rows row_ind with
  | some (row_tile, row_count) =>
    let total := row_count + count
    let new_count := if capacity < total then capacity else total
    let leftover := total - new_count
    { b with
      rows := fun r => if r = row_ind then some (row_tile, new_count) else b.rows r,
      floor := b.floor.add_tiles tile leftover }
  | none =>
    let placed := if capacity < count then capacity else count
    let leftover := count - placed
    { b with
      rows := fun r => if r = row_ind then some (tile, placed) else b.rows r,
      floor := b.floor.add_tiles tile leftover }

/-- `PlayerBoard::predict_score`: recompute `predicted_score` by moving every
full row onto a scratch copy of the wall, adding the wall's aggregate score,
and subtracting the floor penalty, clamped at zero.  (The Rust method mutates
`predicted_score` and returns it; here the updated board is returned.) -/
def predict_score (b : PlayerBoard) : PlayerBoard :=
  let step : Wall × Nat → RowIndex → Wall × Nat := fun (w, s) row_ind =>
    match b.rows row_ind with
    | some (tile, count) =>
      if count = row_ind.row_capacity then
        let ws := w.place_and_score_tile row_ind tile
        (ws.1, s + ws.2)
      else (w, s)
    | none => (w, s)
  let ws := RowIndex.iter.foldl step (b.wall, 0)
  let ps := b.score + ws.2 + ws.1.score
  let fs := floor_score b.floor b.first_player_tile
  { b with predicted_score := if ps < fs then 0 else ps - fs }

/-- `PlayerBoard::place_tiles`: place tiles in a row or on the floor without
validity checks, mark the first-player token if granted, and recompute the
predicted score. -/
def place_tiles (b : PlayerBoard) (dest : Destination) (tile : Tile)
    (count : Nat) (first_player_tile : Bool) : PlayerBoard :=
  let b := if first_player_tile then { b with first_player_tile := true } else b
  let b := match dest with
    | Destination.Row row => b.place_tiles_in_row row tile count
    | Destination.Floor => { b with floor := b.floor.add_tiles tile count }
  b.predict_score

/-- The row-resolution loop body of `PlayerBoard::end_round`: for a full row,
score its tile against the current wall, place it, add the remaining
`count - 1` tiles to the return pool and clear the row. -/
def end_round_step (s : PlayerBoard × TileGroup × Nat) (row_ind : RowIndex) :
    PlayerBoard × TileGroup × Nat :=
  let bd := s.1
  match bd.rows row_ind with
  | some (tile, count) =>
    if count = row_ind.row_capacity then
      let sc := s.2.2 + bd.wall.score_tile row_ind tile
      let wall := bd.wall.place_tile row_ind tile
      let ret := s.2.1.add_tiles tile (count - 1)
      ({ bd with
          wall := wall,
          rows := fun r => if r = row_ind then none else bd.rows r },
        ret, sc)
    else s
  | none => s

/-- `PlayerBoard::end_round`: resolve full rows onto the wall in increasing
capacity order, empty the floor, apply the floor penalty (clamped at zero),
clear the first-player token, and return the updated board, the tiles going
back to the bag, and whether the wall now has a full row. -/
def end_round (b : PlayerBoard) : PlayerBoard × TileGroup × Bool :=
  let s := RowIndex.iter.foldl end_round_step (b, TileGroup.new_empty, 0)
  let bd := s.1
  let fl := bd.floor.empty
  let floor := fl.1
  let fs := floor_score floor bd.first_player_tile
  let total := bd.score + s.2.2
  let new_score := if total < fs then 0 else total - fs
  let bd := { bd with
    floor := fl.2, score := new_score, first_player_tile := false }
  (bd, s.2.1.merge floor, bd.wall.has_full_row)

/-- `PlayerBoard::end_game`: add the wall's aggregate score to the running
score. -/
def end_game (b : PlayerBoard) : PlayerBoard :=
  { b with score := b.score + b.wall.score }

/-- The occupied count of a pattern line. -/
def rowCount (r : Row) : Nat :=
  match r with
  | some (_, c) => c
  | none => 0

/-- `PlayerBoard::tile_count`: tiles held in the rows, floor and wall. -/
def tile_count (b : PlayerBoard) : Nat :=
  (RowIndex.iter.foldl (fun acc r => acc + rowCount (b.rows r)) 0)
  + b.floor.total + b.wall.tile_count

end PlayerBoard

/-- Coarse game state (`State` in `src/gamestate.rs`). -/
inductive State
  | RoundActive
  | RoundEnd
  | GameEnd
deriving DecidableEq, Repr

/-- A move (`Move` in `src/gamestate.rs`).  `Source(u8)` is modelled by the
slot index itself; slot 0 is the centre. -/
structure Move where
  source : Nat
  tile : Tile
  count : Nat
  play_count : Nat
  row_count : Nat
  destination : Destination
deriving DecidableEq, Repr

namespace Move

/-- `Move::new`. -/
def new (source : Nat) (tile : Tile) (count play_count row_count : Nat)
    (destination : Destination) : Move :=
  ⟨source, tile, count, play_count, row_count, destination⟩

/-- `Move::new_to_floor`. -/
def new_to_floor (source : Nat) (tile : Tile) (count : Nat) : Move :=
  ⟨source, tile, count, 0, 0, Destination.Floor⟩

end Move

/-- The game state container (`Gamestate<P, F>` in `src/gamestate.rs`).
`boards` has length `P`; `factories` has length `F`, slot 0 being the centre.
The PRNG embedded in the state is modelled by its stream of future draws. -/
structure Gamestate where
  boards : List PlayerBoard
  tilebag : TileGroup
  factories : List (Option TileGroup)
  first_player_tile : Bool
  rng : List Nat
  current_player : Nat
  round : Nat
  state : State

namespace Gamestate

/-- One iteration of the dealing loop: draw one tile from the bag and, when
the draw succeeds, add it to the display being filled
(`if let Some(tile) = self.tilebag.random_tile(...) { f.add_tile(tile) }`). -/
def drawStep (s : TileGroup × TileGroup × List Nat) :
    TileGroup × TileGroup × List Nat :=
  let d := s.2.1.random_tile s.2.2
  (match d.1 with
   | some t => s.1.add_tile t
   | none => s.1,
   d.2.1, d.2.2)

/-- One factory display being filled: draw 4 tiles one at a time from the bag
(stopping early if the bag is exhausted) — the inner loop of
`Gamestate::deal`. -/
def draw4 (bag : TileGroup) (rng : List Nat) :
    TileGroup × TileGroup × List Nat :=
  drawStep (drawStep (drawStep (drawStep (TileGroup.new_empty, bag, rng))))

/-- The loop of `Gamestate::deal` over `self.factories[1..]`: each non-centre
slot is overwritten with a freshly drawn display. -/
def dealFactories (fs : List (Option TileGroup)) (bag : TileGroup)
    (rng : List Nat) : List (Option TileGroup) × TileGroup × List Nat :=
  match fs with
  | [] => ([], bag, rng)
  | _ :: rest =>
    let d := draw4 bag rng
    let r := dealFactories rest d.2.1 d.2.2
    (some d.1 :: r.1, r.2.1, r.2.2)

/-- `Gamestate::deal`: fill every non-centre factory slot from the bag, set
the state to `RoundActive` and advance the round counter. -/
def deal (g : Gamestate) : Gamestate :=
  let d := dealFactories g.factories.tail g.tilebag g.rng
  let factories := match g.factories with
    | [] => []
    | f0 :: _ => f0 :: d.1
  { g with
    factories := factories, tilebag := d.2.1, rng := d.2.2,
    state := State.RoundActive, round := g.round + 1 }

/-- `Gamestate::new`: default boards, a full bag, empty factory slots, the
first-player token available, then an initial deal. -/
def new (P F : Nat) (rng : List Nat) (first_player : Nat) : Gamestate :=
  deal
    { boards := List.replicate P PlayerBoard.default
      tilebag := TileGroup.new_bag
      factories := List.replicate F none
      first_player_tile := true
      rng := rng
      current_player := first_player
      round := 0
      state := State.GameEnd }

/-- `Gamestate::new_2_player_with_seed` (`P = 2`, `F = 6`). -/
def new_2_player_with_seed (rng : List Nat) (first_player : Nat) : Gamestate :=
  new 2 6 rng first_player

/-- `Gamestate::get_moves`: every legal row placement plus a to-floor move,
for every colour present in every non-empty factory slot.  `none` models the
index panic when `current_player` is out of bounds. -/
def get_moves (g : Gamestate) : Option (List Move) :=
  match g.boards.get? g.current_player with
  | none => none
  | some board => some <|
    (g.factories.enum.filterMap
        (fun p => p.2.map (fun f => (p.1, f)))).flatMap
      (fun sf =>
        Tile.iter.flatMap (fun tile =>
          let count := sf.2.get tile
          if 0 < count then
            (RowIndex.iter.filterMap (fun row =>
              (board.can_play_tile row tile count).map (fun pr =>
                Move.new sf.1 tile count pr.1 pr.2 (Destination.Row row))))
            ++ [Move.new_to_floor sf.1 tile count]
          else []))

/-- The round-over test of `Gamestate::play_move`: every factory slot is
empty (`f.map_or(true, |f| f.total() == 0)`). -/
def round_over (fs : List (Option TileGroup)) : Bool :=
  fs.all (fun f =>
    match f with
    | none => true
    | some f => f.total == 0)

/-- `Gamestate::play_move`: take the chosen colour from the source slot,
place it on the acting player's board (taking the first-player token when the
source is the centre and the token is available), move the slot's remaining
tiles to the centre, and either end the round (when all slots are empty) or
advance to the next player.  `none` models the source panics (`unwrap` of an
empty slot, index out of bounds). -/
def play_move (g : Gamestate) (m : Move) : Option Gamestate :=
  match g.factories.get? m.source with
  | none => none
  | some none => none
  | some (some factory) =>
    let factories := g.factories.set m.source none
    let tc := factory.take_tile m.tile
    let count := tc.1
    let factory := tc.2
    let fp := g.first_player_tile && (m.source == 0)
    match g.boards.get? g.current_player with
    | none => none
    | some board =>
      let boards := g.boards.set g.current_player
        (board.place_tiles m.destination m.tile count fp)
      let first_player_tile := if fp then false else g.first_player_tile
      match factories.get? 0 with
      | none => none
      | some centre? =>
        let factories := match centre? with
          | some centre => factories.set 0 (some (centre.merge factory))
          | none => factories.set 0 (some factory)
        if round_over factories then
          some { g with
            boards := boards, factories := factories,
            first_player_tile := first_player_tile,
            state := State.RoundEnd }
        else
          some { g with
            boards := boards, factories := factories,
            first_player_tile := first_player_tile,
            current_player := (g.current_player + 1) % g.boards.length }

/-- `Gamestate::predict_score`: the predicted score of a hypothetical copy of
the current player's board after playing the move, and the change from the
board's previous predicted score.  The body is threaded through the state to
make the read-only contract of `&self` explicit: the first component is the
state after the call.  `none` models the index panic. -/
def predict_score (g : Gamestate) (m : Move) :
    Gamestate × Option (Nat × Int) :=
  match g.boards.get? g.current_player with
  | none => (g, none)
  | some board =>
    let prev_score := board.predicted_score
    let board := board.place_tiles m.destination m.tile m.count
      ((m.source == 0) && g.first_player_tile)
    (g, some (board.predicted_score,
      (board.predicted_score : Int) - (prev_score : Int)))

/-- The first-player scan of `Gamestate::end_round`: the last board holding
the first-player token becomes the next current player. -/
def fp_scan (boards : List (Nat × PlayerBoard)) (cp : Nat) : Nat :=
  boards.foldl (fun acc p => if p.2.first_player_tile then p.1 else acc) cp

/-- `Gamestate::end_round`: pick the next first player, reset the token,
resolve every board (returning its tiles to the bag), then either finalize
the game (a full wall row or round 10) or deal the next round. -/
def end_round (g : Gamestate) : Gamestate :=
  let cp := fp_scan g.boards.enum g.current_player
  let results := g.boards.map PlayerBoard.end_round
  let boards := results.map (fun r => r.1)
  let bag := results.foldl (fun acc r => acc.merge r.2.1) g.tilebag
  let g := { g with
    current_player := cp, first_player_tile := true,
    boards := boards, tilebag := bag }
  if results.any (fun r => r.2.2) || g.round == 10 then
    { g with
      boards := g.boards.map PlayerBoard.end_game,
      state := State.GameEnd }
  else
    deal g

/-- `Gamestate::tile_count`: all tiles in play (boards + bag + factories). -/
def tile_count (g : Gamestate) : Nat :=
  (g.boards.map PlayerBoard.tile_count).sum
  + g.tilebag.total
  + (((g.factories.filterMap id).map TileGroup.total)).sum

/-- `Gamestate::fp_count`: the number of first-player tokens in play. -/
def fp_count (g : Gamestate) : Nat :=
  (g.boards.filter (fun b => b.first_player_tile)).length
  + if g.first_player_tile then 1 else 0

end Gamestate

/-- The quiescent states of the engine that the specification's invariants
quantify over: a freshly constructed 2-player game, followed by any sequence
of `play_move` steps on moves produced by `get_moves` in state `RoundActive`
and `end_round` steps in state `RoundEnd`. -/
inductive Reachable : Gamestate → Prop
  | init (rng : List Nat) (first_player : Nat) :
      Reachable (Gamestate.new_2_player_with_seed rng first_player)
  | play {g g' : Gamestate} {m : Move} {ms : List Move} :
      Reachable g → g.state = State.RoundActive →
      g.get_moves = some ms → m ∈ ms →
      g.play_move m = some g' → Reachable g'
  | round {g : Gamestate} :
      Reachable g → g.state = State.RoundEnd → Reachable g.end_round

/-! ## Claim theorems -/

/-- C1 counterexample: on a default (empty) board, row One has capacity 1,
yet `can_play_tile` with 2 available tiles returns `some (2, 2)` — the
claimed cap `min(c, capacity - current) = 1` and the bound
`resulting ≤ capacity` both fail. -/
theorem spec_C1_counterexample :
    PlayerBoard.can_play_tile PlayerBoard.default RowIndex.One Tile.Blue 2 =
      some (2, 2) ∧
    RowIndex.One.row_capacity < 2 := by
  constructor
  · rfl
  · decide

/-- C1 (amended): `can_play_tile(r, t, c)` with `c > 0` returns `some` iff
the placement is legal (empty row with free wall cell, or a row already
holding `t` below capacity).  When the row already holds `t` with count `k`,
the returned pair is `(min c (capacity - k), min (k + c) capacity)`, bounded
by the capacity; when the row is empty the pair is `(c, c)` uncapped, so the
resulting count may exceed the capacity. -/
theorem spec_C1 (b : PlayerBoard) (r : RowIndex) (t : Tile) (c : Nat)
    (h : 0 < c) :
    ((b.can_play_tile r t c).isSome ↔
      (b.rows r = none ∧ b.wall.cell_available r t = true) ∨
      (∃ k, b.rows r = some (t, k) ∧ k < r.row_capacity)) ∧
    (∀ pc rc, b.can_play_tile r t c = some (pc, rc) →
      (b.rows r = none → pc = c ∧ rc = c) ∧
      (∀ t0 k, b.rows r = some (t0, k) →
        pc = min c (r.row_capacity - k) ∧
        rc = min (k + c) r.row_capacity ∧
        rc ≤ r.row_capacity)) := by
  unfold PlayerBoard.can_play_tile
  cases hr : b.rows r with
  | none =>
    by_cases hw : b.wall.cell_available r t
    · simp [hw]
    · simp [hw]
  | some tc =>
    obtain ⟨t0, k⟩ := tc
    dsimp only
    by_cases ht : t0 = t
    · subst ht
      by_cases hk : k < r.row_capacity
      · rw [if_pos rfl, if_pos hk]
        constructor
        · exact iff_of_true rfl (Or.inr ⟨k, rfl, hk⟩)
        · intro pc rc hpr
          have hpr' := Option.some.inj hpr
          injection hpr' with h1 h2
          subst h1; subst h2
          constructor
          · intro h0; exact Option.noConfusion h0
          · intro t1 k1 h1
            have h1' := Option.some.inj h1
            injection h1' with h2 h3
            subst h2; subst h3
            refine ⟨by omega, by omega, by omega⟩
      · rw [if_pos rfl, if_neg hk]
        constructor
        · refine iff_of_false (by simp) ?_
          rintro (⟨h0, _⟩ | ⟨k1, h1, h2⟩)
          · exact Option.noConfusion h0
          · have h1' := Option.some.inj h1
            injection h1' with _ h3
            subst h3
            exact hk h2
        · intro pc rc hpr; exact Option.noConfusion hpr
    · rw [if_neg ht]
      constructor
      · refine iff_of_false (by simp) ?_
        rintro (⟨h0, _⟩ | ⟨k1, h1, h2⟩)
        · exact Option.noConfusion h0
        · have h1' := Option.some.inj h1
          injection h1' with h2 _
          exact ht h2
      · intro pc rc hpr; exact Option.noConfusion hpr

/-- C7: the wall column used for `(r, t)` by `cell_available` and
`place_tile` is `(r + t) mod 5`, and that assignment agrees with the
published `WALL_COLOURS` reference table. -/
theorem spec_C7 :
    (∀ (r : RowIndex) (t : Tile), r.tile_column t = (r.toNat + t.toNat) % 5) ∧
    (∀ (r : RowIndex) (t : Tile),
      (WALL_COLOURS.getD r.toNat []).getD ((r.toNat + t.toNat) % 5) Tile.Blue
        = t) ∧
    (∀ (w : Wall) (r : RowIndex) (t : Tile),
      w.cell_available r t
        = (w.cells r.toNat ((r.toNat + t.toNat) % 5)).isNone) ∧
    (∀ (w : Wall) (r : RowIndex) (t : Tile) (i j : Nat),
      (w.place_tile r t).cells i j =
        if i = r.toNat ∧ j = (r.toNat + t.toNat) % 5 then some t
        else w.cells i j) := by
  refine ⟨fun r t => rfl, by decide, fun w r t => rfl, fun w r t i j => rfl⟩

/-- C9: `predict_score` leaves the game state exactly as it was (the first
component of the threaded result is the input state), and returns the
predicted score of a hypothetical copy of the current player's board after
placing the move, paired with the signed difference from that board's
previous predicted score. -/
theorem spec_C9 (g : Gamestate) (m : Move)
    (h : g.current_player < g.boards.length) :
    (g.predict_score m).1 = g ∧
    ∃ b, g.boards.get? g.current_player = some b ∧
      (g.predict_score m).2 = some
        ((b.place_tiles m.destination m.tile m.count
            ((m.source == 0) && g.first_player_tile)).predicted_score,
         ((b.place_tiles m.destination m.tile m.count
            ((m.source == 0) && g.first_player_tile)).predicted_score : Int)
           - (b.predicted_score : Int)) := by
  cases hb : g.boards.get? g.current_player with
  | none =>
    rw [List.get?_eq_none] at hb
    omega
  | some b =>
    unfold Gamestate.predict_score
    rw [hb]
    exact ⟨rfl, b, rfl, rfl⟩

/-- C10: placing `c` tiles of colour `t` on the floor leaves the wall, all
pattern rows and the score unchanged, adds exactly `c` tiles of colour `t`
to the floor (no other colour's count changes), and sets the first-player
flag iff it was already set or the grant flag is true — so a false grant
never clears it.  Only `predicted_score` may otherwise change. -/
theorem spec_C10 (b : PlayerBoard) (t : Tile) (c : Nat) (f : Bool) :
    ((b.place_tiles Destination.Floor t c f).wall = b.wall) ∧
    ((b.place_tiles Destination.Floor t c f).rows = b.rows) ∧
    ((b.place_tiles Destination.Floor t c f).score = b.score) ∧
    ((b.place_tiles Destination.Floor t c f).floor.get t
      = b.floor.get t + c) ∧
    (∀ t', t' ≠ t →
      (b.place_tiles Destination.Floor t c f).floor.get t'
        = b.floor.get t') ∧
    ((b.place_tiles Destination.Floor t c f).first_player_tile
      = (b.first_player_tile || f)) := by
  cases f <;>
    simp [PlayerBoard.place_tiles, PlayerBoard.predict_score,
      TileGroup.add_tiles, TileGroup.get_set_self] <;>
    exact fun t' ht' =>
      TileGroup.get_set_other b.floor t t' (b.floor.get t + c) ht'

/-! ### C6: single-placement scoring -/

/-- The contiguous occupied run extending towards lower indices from `r`
(not counting `r` itself), stated independently of the scanning loops: the
longest occupied prefix of `r-1, r-2, ..., 0`. -/
def upRun (occ : Nat → Bool) (r : Nat) : Nat :=
  (((List.range r).reverse).takeWhile occ).length

/-- The contiguous occupied run extending towards higher indices from `r`
(not counting `r` itself): the longest occupied prefix of `r+1, ..., 4`. -/
def downRun (occ : Nat → Bool) (r : Nat) : Nat :=
  (((List.range 5).drop (r + 1)).takeWhile occ).length

/-- The specification's description of `Wall::score_tile`: rowScore is the
contiguous occupied run adjacent to the cell in its row plus 1 if non-zero
else 0, colScore likewise for the column, the total is their sum, and an
isolated tile (both runs zero) scores 1. -/
def Wall.score_tile_spec (w : Wall) (row : RowIndex) (tile : Tile) : Nat :=
  let col := row.tile_column tile
  let r := row.toNat
  let occCol := fun i => (w.cells i col).isSome
  let occRow := fun j => (w.cells r j).isSome
  let colRun := upRun occCol r + downRun occCol r
  let rowRun := upRun occRow col + downRun occRow col
  if rowRun = 0 ∧ colRun = 0 then 1
  else (if 0 < rowRun then rowRun + 1 else 0)
    + (if 0 < colRun then colRun + 1 else 0)

theorem scanNeg_eq_upRun (occ : Nat → Bool) (r : Nat) :
    scanNeg occ r = upRun occ r := by
  induction r with
  | zero => rfl
  | succ n ih =>
    rw [upRun, List.range_succ, List.reverse_append]
    cases hoc : occ n <;>
      simp [scanNeg, hoc, ih, upRun, List.takeWhile]

theorem scanPosAux_eq (occ : Nat → Bool) :
    ∀ fuel i, i + fuel = 5 →
      scanPosAux occ i fuel
        = (((List.range 5).drop i).takeWhile occ).length := by
  intro fuel
  induction fuel with
  | zero =>
    intro i hi
    rw [List.drop_eq_nil_of_le (by simp; omega)]
    rfl
  | succ n ih =>
    intro i hi
    have h5 : i < 5 := by omega
    have hcons : (List.range 5).drop i = i :: (List.range 5).drop (i + 1) := by
      rw [List.drop_eq_getElem_cons (by simpa using h5)]
      simp
    rw [hcons]
    cases hoc : occ i <;>
      simp [scanPosAux, List.takeWhile, hoc, ih (i + 1) (by omega)]

theorem scanPos_eq_downRun (occ : Nat → Bool) (r : Nat) :
    scanPos occ (r + 1) = downRun occ r := by
  unfold scanPos downRun
  by_cases h : r + 1 ≤ 5
  · exact scanPosAux_eq occ (5 - (r + 1)) (r + 1) (by omega)
  · have h1 : 5 - (r + 1) = 0 := by omega
    rw [h1, List.drop_eq_nil_of_le (by simp; omega)]
    rfl

/-- C6: `score_tile` computes exactly the specification's formula
(row run and column run adjacent to the fixed cell, each `+1` when non-zero,
summed, with an isolated tile scoring 1), and on a completely empty wall
every `(row, tile)` placement scores exactly 1. -/
theorem spec_C6 :
    (∀ (w : Wall) (r : RowIndex) (t : Tile),
      w.score_tile r t = w.score_tile_spec r t) ∧
    (∀ (r : RowIndex) (t : Tile), Wall.default.score_tile r t = 1) := by
  constructor
  · intro w r t
    simp only [Wall.score_tile, Wall.score_tile_spec, scanNeg_eq_upRun,
      scanPos_eq_downRun]
    split_ifs <;> first | contradiction | omega
  · decide

/-! ### C8: round-end scoring on a board -/

/-- The accumulated single-placement score of the full rows, resolved in
increasing capacity order, exactly as the `PlayerBoard::end_round` loop
computes it. -/
def PlayerBoard.round_placement_score (b : PlayerBoard) : Nat :=
  (RowIndex.iter.foldl PlayerBoard.end_round_step (b, TileGroup.new_empty, 0)).2.2

/-- The row-resolution loop only touches the wall and the rows: floor, score
and the first-player flag of the board pass through unchanged. -/
theorem end_round_fold_frame (l : List RowIndex)
    (s : PlayerBoard × TileGroup × Nat) :
    (l.foldl PlayerBoard.end_round_step s).1.floor = s.1.floor ∧
    (l.foldl PlayerBoard.end_round_step s).1.score = s.1.score ∧
    (l.foldl PlayerBoard.end_round_step s).1.first_player_tile
      = s.1.first_player_tile := by
  induction l generalizing s with
  | nil => exact ⟨rfl, rfl, rfl⟩
  | cons r rest ih =>
    rw [List.foldl_cons]
    have hstep : (PlayerBoard.end_round_step s r).1.floor = s.1.floor ∧
        (PlayerBoard.end_round_step s r).1.score = s.1.score ∧
        (PlayerBoard.end_round_step s r).1.first_player_tile
          = s.1.first_player_tile := by
      unfold PlayerBoard.end_round_step
      cases hrow : s.1.rows r with
      | none =>
        simp [hrow]
      | some tc =>
        obtain ⟨t0, k⟩ := tc
        simp only [hrow]
        by_cases hk : k = r.row_capacity
        · simp [hk]
        · simp [hk]
    obtain ⟨h1, h2, h3⟩ := ih (PlayerBoard.end_round_step s r)
    obtain ⟨g1, g2, g3⟩ := hstep
    exact ⟨h1.trans g1, h2.trans g2, h3.trans g3⟩

/-- `PlayerBoard::end_round` updates the score to the old score plus the
round's placement score minus the floor penalty of the emptied floor,
clamped at zero. -/
theorem end_round_score (b : PlayerBoard) :
    (b.end_round).1.score =
      if b.score + b.round_placement_score
          < floor_score b.floor b.first_player_tile
      then 0
      else b.score + b.round_placement_score
          - floor_score b.floor b.first_player_tile := by
  obtain ⟨hf, hs, hp⟩ :=
    end_round_fold_frame RowIndex.iter (b, TileGroup.new_empty, 0)
  unfold PlayerBoard.end_round PlayerBoard.round_placement_score
  dsimp only [TileGroup.empty]
  rw [hf, hs, hp]

/-- C8: `end_round` sets the new score to
`max(0, old + placement score - floor penalty)` where the penalty comes from
the emptied floor plus the held first-player token via the table
0,1,2,4,6,8,11,14; the score never goes below zero and the first-player flag
is cleared unconditionally. -/
theorem spec_C8 (b : PlayerBoard) :
    (((b.end_round).1.score : Int)
      = max 0 ((b.score : Int) + (b.round_placement_score : Int)
          - (floor_score b.floor b.first_player_tile : Int))) ∧
    (b.end_round).1.first_player_tile = false ∧
    (∀ (tg : TileGroup) (fp : Bool),
      floor_score tg fp =
        if tg.total + (if fp then 1 else 0) = 0 then 0
        else if tg.total + (if fp then 1 else 0) = 1 then 1
        else if tg.total + (if fp then 1 else 0) = 2 then 2
        else if tg.total + (if fp then 1 else 0) = 3 then 4
        else if tg.total + (if fp then 1 else 0) = 4 then 6
        else if tg.total + (if fp then 1 else 0) = 5 then 8
        else if tg.total + (if fp then 1 else 0) = 6 then 11
        else 14) := by
  refine ⟨?_, rfl, ?_⟩
  · rw [end_round_score]
    split_ifs with h <;> push_cast <;> omega
  · intro tg fp
    unfold floor_score
    set n := tg.total + (if fp then 1 else 0) with hn
    clear_value n
    rcases n with _ | _ | _ | _ | _ | _ | _ | m <;> simp

/-! ### List accounting helpers -/

theorem length_filter_eq_sum_map {α : Type} (p : α → Bool) (l : List α) :
    (l.filter p).length = (l.map (fun x => if p x then 1 else 0)).sum := by
  induction l with
  | nil => rfl
  | cons a l ih =>
    cases hp : p a <;> simp [List.filter_cons, hp, ih] <;> omega

theorem sum_map_set {α : Type} (f : α → Nat) :
    ∀ (l : List α) (i : Nat) (x a : α), l.get? i = some x →
      ((l.set i a).map f).sum + f x = (l.map f).sum + f a := by
  intro l
  induction l with
  | nil => intro i x a h; simp at h
  | cons b l ih =>
    intro i x a h
    cases i with
    | zero =>
      rw [List.get?_cons_zero] at h
      injection h with h
      subst h
      simp only [List.set_cons_zero, List.map_cons, List.sum_cons]
      omega
    | succ n =>
      rw [List.get?_cons_succ] at h
      have ih' := ih n x a h
      simp only [List.set_cons_succ, List.map_cons, List.sum_cons]
      omega

theorem sum_eq_zero_mem {l : List Nat} (h : l.sum = 0) : ∀ x ∈ l, x = 0 := by
  induction l with
  | nil => simp
  | cons a l ih =>
    simp only [List.sum_cons] at h
    have ha : a = 0 := by omega
    have hl : l.sum = 0 := by omega
    intro x hx
    rcases List.mem_cons.mp hx with rfl | hx
    · exact ha
    · exact ih hl x hx

/-- The tile total held by an optional factory slot. -/
def optTotal : Option TileGroup → Nat
  | none => 0
  | some f => f.total

theorem filterMap_id_map_total (fs : List (Option TileGroup)) :
    ((fs.filterMap id).map TileGroup.total).sum = (fs.map optTotal).sum := by
  induction fs with
  | nil => rfl
  | cons f fs ih =>
    cases f <;> simp [List.filterMap_cons, optTotal, ih]

/-! ### Conservation of tiles by board placement -/

/-- The total tile count of the five pattern lines. -/
theorem rows_foldl_update (rows : RowIndex → Row) (r0 : RowIndex) (v : Row) :
    (RowIndex.iter.foldl
        (fun acc r => acc + PlayerBoard.rowCount
          (if r = r0 then v else rows r)) 0)
      + PlayerBoard.rowCount (rows r0)
    = (RowIndex.iter.foldl
        (fun acc r => acc + PlayerBoard.rowCount (rows r)) 0)
      + PlayerBoard.rowCount v := by
  cases r0 <;> simp [RowIndex.iter] <;> omega

theorem rowCount_none : PlayerBoard.rowCount none = 0 := rfl

theorem rowCount_some (t : Tile) (k : Nat) :
    PlayerBoard.rowCount (some (t, k)) = k := rfl

theorem ite_min (a c : Nat) : (if a < c then a else c) = min a c := by
  split_ifs <;> omega

theorem tile_count_place_tiles_in_row (b : PlayerBoard) (r0 : RowIndex)
    (t : Tile) (c : Nat) :
    (b.place_tiles_in_row r0 t c).tile_count = b.tile_count + c := by
  unfold PlayerBoard.place_tiles_in_row PlayerBoard.tile_count
  cases hrow : b.rows r0 with
  | none =>
    dsimp only
    rw [TileGroup.total_add_tiles, ite_min]
    have h1 := rows_foldl_update b.rows r0 (some (t, min r0.row_capacity c))
    rw [hrow, rowCount_none, rowCount_some] at h1
    omega
  | some tc =>
    obtain ⟨t0, k⟩ := tc
    dsimp only
    rw [TileGroup.total_add_tiles, ite_min]
    have h1 := rows_foldl_update b.rows r0
      (some (t0, min r0.row_capacity (k + c)))
    rw [hrow, rowCount_some, rowCount_some] at h1
    omega

/-- `predict_score` changes only `predicted_score`: the tile count is
untouched. -/
theorem tile_count_predict_score (b : PlayerBoard) :
    (b.predict_score).tile_count = b.tile_count := rfl

theorem fields_predict_score (b : PlayerBoard) :
    (b.predict_score).wall = b.wall ∧ (b.predict_score).floor = b.floor ∧
    (b.predict_score).rows = b.rows ∧ (b.predict_score).score = b.score ∧
    (b.predict_score).first_player_tile = b.first_player_tile :=
  ⟨rfl, rfl, rfl, rfl, rfl⟩

/-- Placing `c` tiles anywhere on a board adds exactly `c` to its tile
count: row overflow spills to the floor, floor placement goes to the
floor. -/
theorem tile_count_place_tiles (b : PlayerBoard) (d : Destination) (t : Tile)
    (c : Nat) (f : Bool) :
    (b.place_tiles d t c f).tile_count = b.tile_count + c := by
  cases d with
  | Row r0 =>
    cases f
    · show ((b.place_tiles_in_row r0 t c).predict_score).tile_count = _
      rw [tile_count_predict_score, tile_count_place_tiles_in_row]
    · show ((({ b with first_player_tile := true } :
          PlayerBoard).place_tiles_in_row r0 t c).predict_score).tile_count = _
      rw [tile_count_predict_score, tile_count_place_tiles_in_row]
      rfl
  | Floor =>
    cases f
    · show (({ b with floor := b.floor.add_tiles t c } :
          PlayerBoard).predict_score).tile_count = _
      rw [tile_count_predict_score]
      unfold PlayerBoard.tile_count
      dsimp only
      rw [TileGroup.total_add_tiles]
      omega
    · show (({ b with first_player_tile := true, floor := b.floor.add_tiles t c } : PlayerBoard).predict_score).tile_count = _
      rw [tile_count_predict_score]
      unfold PlayerBoard.tile_count
      dsimp only
      rw [TileGroup.total_add_tiles]
      omega

/-! ### Conservation of tiles through round resolution -/

theorem toNat_inj : ∀ {r r' : RowIndex}, r.toNat = r'.toNat → r = r' := by
  decide

theorem row_capacity_pos (r : RowIndex) : 1 ≤ r.row_capacity := by
  cases r <;> decide

theorem range5 : List.range 5 = [0, 1, 2, 3, 4] := rfl

theorem total_new_empty : TileGroup.new_empty.total = 0 := rfl

/-- Placing a tile on a free wall cell increases the wall's tile count by
exactly one. -/
theorem tile_count_place_tile (w : Wall) (r : RowIndex) (t : Tile)
    (h : w.cell_available r t = true) :
    (w.place_tile r t).tile_count = w.tile_count + 1 := by
  have hc : w.cells r.toNat (r.tile_column t) = none := by
    unfold Wall.cell_available at h
    exact Option.isNone_iff_eq_none.mp h
  unfold Wall.tile_count Wall.place_tile
  rw [length_filter_eq_sum_map, length_filter_eq_sum_map]
  cases r <;> cases t <;>
    (simp only [RowIndex.toNat, RowIndex.tile_column, Tile.toNat] at hc ⊢
     simp only [range5] at hc ⊢
     norm_num at hc ⊢
     simp [hc]
     try omega)

/-- Every non-empty pattern line's wall cell is still free — the inductive
invariant that makes round resolution lossless. -/
def PlayerBoard.RowsFree (b : PlayerBoard) : Prop :=
  ∀ (r : RowIndex) (t : Tile) (c : Nat), b.rows r = some (t, c) →
    b.wall.cell_available r t = true

theorem end_round_step_conserve (s : PlayerBoard × TileGroup × Nat)
    (r0 : RowIndex)
    (hfree : ∀ r t c, s.1.rows r = some (t, c) →
      s.1.wall.cell_available r t = true) :
    ((PlayerBoard.end_round_step s r0).1.tile_count
        + (PlayerBoard.end_round_step s r0).2.1.total
      = s.1.tile_count + s.2.1.total) ∧
    (∀ r t c, (PlayerBoard.end_round_step s r0).1.rows r = some (t, c) →
      (PlayerBoard.end_round_step s r0).1.wall.cell_available r t = true) := by
  unfold PlayerBoard.end_round_step
  dsimp only
  cases hrow : s.1.rows r0 with
  | none =>
    exact ⟨rfl, hfree⟩
  | some tc =>
    obtain ⟨t0, k⟩ := tc
    dsimp only
    by_cases hk : k = r0.row_capacity
    · rw [if_pos hk]
      have hcell := hfree r0 t0 k hrow
      constructor
      · unfold PlayerBoard.tile_count
        dsimp only
        rw [tile_count_place_tile _ _ _ hcell, TileGroup.total_add_tiles]
        have h1 := rows_foldl_update s.1.rows r0 none
        rw [hrow, rowCount_some, rowCount_none] at h1
        have h2 := row_capacity_pos r0
        omega
      · intro r t c hr
        dsimp only at hr
        by_cases hrr : r = r0
        · subst hrr
          rw [if_pos rfl] at hr
          exact Option.noConfusion hr
        · rw [if_neg hrr] at hr
          have hav := hfree r t c hr
          unfold Wall.cell_available at hav
          unfold Wall.cell_available Wall.place_tile
          dsimp only
          rw [if_neg]
          · exact hav
          · rintro ⟨h1, _⟩
            exact hrr (toNat_inj h1)
    · rw [if_neg hk]
      exact ⟨rfl, hfree⟩

theorem end_round_foldl_conserve (l : List RowIndex) :
    ∀ s : PlayerBoard × TileGroup × Nat,
      (∀ r t c, s.1.rows r = some (t, c) →
        s.1.wall.cell_available r t = true) →
      ((l.foldl PlayerBoard.end_round_step s).1.tile_count
          + (l.foldl PlayerBoard.end_round_step s).2.1.total
        = s.1.tile_count + s.2.1.total) ∧
      (∀ r t c,
        (l.foldl PlayerBoard.end_round_step s).1.rows r = some (t, c) →
        (l.foldl PlayerBoard.end_round_step s).1.wall.cell_available r t
          = true) := by
  induction l with
  | nil => intro s h; exact ⟨rfl, h⟩
  | cons r0 rest ih =>
    intro s h
    rw [List.foldl_cons]
    obtain ⟨hc0, hf0⟩ := end_round_step_conserve s r0 h
    obtain ⟨hc1, hf1⟩ := ih (PlayerBoard.end_round_step s r0) hf0
    exact ⟨by omega, hf1⟩

/-- Round resolution conserves tiles: the resolved board plus the returned
pool hold exactly the tiles the board held, and the invariant survives. -/
theorem playerboard_end_round_conserve (b : PlayerBoard) (h : b.RowsFree) :
    (b.end_round).1.tile_count + (b.end_round).2.1.total = b.tile_count ∧
    (b.end_round).1.RowsFree := by
  obtain ⟨hc, hf⟩ :=
    end_round_foldl_conserve RowIndex.iter (b, TileGroup.new_empty, 0) h
  dsimp only at hc
  rw [total_new_empty] at hc
  constructor
  · unfold PlayerBoard.end_round
    dsimp only [TileGroup.empty]
    rw [TileGroup.total_merge]
    unfold PlayerBoard.tile_count at hc ⊢
    dsimp only
    rw [total_new_empty]
    omega
  · intro r t c hr
    exact hf r t c hr

/-! ### Conservation of tiles through dealing -/

theorem drawStep_conserve (s : TileGroup × TileGroup × List Nat) :
    (Gamestate.drawStep s).1.total + (Gamestate.drawStep s).2.1.total
      = s.1.total + s.2.1.total := by
  unfold Gamestate.drawStep
  dsimp only
  cases hd : s.2.1.random_tile s.2.2 with
  | mk o rest =>
    obtain ⟨tg2, rng2⟩ := rest
    cases o with
    | some t =>
      have := TileGroup.random_tile_some_total s.2.1 s.2.2 t tg2 rng2 hd
      dsimp only
      rw [TileGroup.total_add_tile]
      omega
    | none =>
      have := TileGroup.random_tile_none_group s.2.1 s.2.2 tg2 rng2 hd
      subst this
      dsimp only

theorem draw4_conserve (bag : TileGroup) (rng : List Nat) :
    (Gamestate.draw4 bag rng).1.total + (Gamestate.draw4 bag rng).2.1.total
      = bag.total := by
  unfold Gamestate.draw4
  have h1 := drawStep_conserve (TileGroup.new_empty, bag, rng)
  have h2 := drawStep_conserve (Gamestate.drawStep (TileGroup.new_empty, bag, rng))
  have h3 := drawStep_conserve
    (Gamestate.drawStep (Gamestate.drawStep (TileGroup.new_empty, bag, rng)))
  have h4 := drawStep_conserve
    (Gamestate.drawStep (Gamestate.drawStep
      (Gamestate.drawStep (TileGroup.new_empty, bag, rng))))
  dsimp only at h1
  rw [total_new_empty] at h1
  omega

theorem dealFactories_conserve (fs : List (Option TileGroup)) :
    ∀ (bag : TileGroup) (rng : List Nat),
      ((Gamestate.dealFactories fs bag rng).1.map optTotal).sum
          + (Gamestate.dealFactories fs bag rng).2.1.total
        = bag.total := by
  induction fs with
  | nil =>
    intro bag rng
    simp [Gamestate.dealFactories]
  | cons f rest ih =>
    intro bag rng
    unfold Gamestate.dealFactories
    dsimp only
    have hd := draw4_conserve bag rng
    have hr := ih (Gamestate.draw4 bag rng).2.1 (Gamestate.draw4 bag rng).2.2
    simp only [List.map_cons, List.sum_cons, optTotal]
    omega

/-- Dealing conserves tiles when the overwritten display slots are empty (as
they are whenever `deal` is reached: at construction and at a round end). -/
theorem deal_tile_count (g : Gamestate)
    (h : ∀ f ∈ g.factories.tail, optTotal f = 0) :
    (g.deal).tile_count = g.tile_count := by
  unfold Gamestate.deal Gamestate.tile_count
  dsimp only
  rw [filterMap_id_map_total, filterMap_id_map_total]
  cases hf : g.factories with
  | nil =>
    simp [Gamestate.dealFactories]
  | cons f0 rest =>
    rw [hf] at h
    simp only [List.tail_cons] at h ⊢
    have hzero : (rest.map optTotal).sum = 0 := by
      apply List.sum_eq_zero
      intro x hx
      obtain ⟨f, hf1, rfl⟩ := List.mem_map.mp hx
      exact h f hf1
    have hc := dealFactories_conserve rest g.tilebag g.rng
    simp only [List.map_cons, List.sum_cons]
    omega

theorem deal_frame (g : Gamestate) :
    (g.deal).boards = g.boards ∧
    (g.deal).first_player_tile = g.first_player_tile ∧
    (g.deal).current_player = g.current_player ∧
    (g.deal).state = State.RoundActive ∧
    (g.deal).round = g.round + 1 :=
  ⟨rfl, rfl, rfl, rfl, rfl⟩

/-! ### Structure of `play_move` -/

/-- Full decomposition of a successful `play_move`: the factory and board
that were read, and every field of the resulting state. -/
theorem play_move_parts (g : Gamestate) (m : Move) (g' : Gamestate)
    (h : g.play_move m = some g') :
    ∃ factory board centreSlot,
      g.factories.get? m.source = some (some factory) ∧
      g.boards.get? g.current_player = some board ∧
      (g.factories.set m.source none).get? 0 = some centreSlot ∧
      g'.boards = g.boards.set g.current_player
        (board.place_tiles m.destination m.tile
          (factory.take_tile m.tile).1
          (g.first_player_tile && (m.source == 0))) ∧
      g'.factories = (match centreSlot with
        | some centre => (g.factories.set m.source none).set 0
            (some (centre.merge (factory.take_tile m.tile).2))
        | none => (g.factories.set m.source none).set 0
            (some (factory.take_tile m.tile).2)) ∧
      g'.tilebag = g.tilebag ∧
      g'.first_player_tile
        = (if g.first_player_tile && (m.source == 0) then false
           else g.first_player_tile) ∧
      g'.round = g.round ∧
      ((g'.state = State.RoundEnd
          ∧ Gamestate.round_over g'.factories = true
          ∧ g'.current_player = g.current_player) ∨
       (g'.state = g.state
          ∧ Gamestate.round_over g'.factories = false
          ∧ g'.current_player = (g.current_player + 1) % g.boards.length)) := by
  unfold Gamestate.play_move at h
  cases hfac : g.factories.get? m.source with
  | none => rw [hfac] at h; exact Option.noConfusion h
  | some o =>
    rw [hfac] at h
    cases o with
    | none => exact Option.noConfusion h
    | some factory =>
      dsimp only at h
      cases hb : g.boards.get? g.current_player with
      | none => rw [hb] at h; exact Option.noConfusion h
      | some board =>
        rw [hb] at h
        dsimp only at h
        cases hcen : (g.factories.set m.source none).get? 0 with
        | none => rw [hcen] at h; exact Option.noConfusion h
        | some centreSlot =>
          rw [hcen] at h
          dsimp only at h
          refine ⟨factory, board, centreSlot, rfl, rfl, rfl, ?_⟩
          cases centreSlot with
          | some centre =>
            dsimp only at h
            by_cases hro : Gamestate.round_over
                ((g.factories.set m.source none).set 0
                  (some (centre.merge (factory.take_tile m.tile).2))) = true
            · rw [if_pos hro] at h
              injection h with h
              subst h
              exact ⟨rfl, rfl, rfl, rfl, rfl, Or.inl ⟨rfl, hro, rfl⟩⟩
            · rw [if_neg hro] at h
              injection h with h
              subst h
              refine ⟨rfl, rfl, rfl, rfl, rfl, Or.inr ⟨rfl, ?_, rfl⟩⟩
              simp only [Bool.not_eq_true] at hro
              exact hro
          | none =>
            dsimp only at h
            by_cases hro : Gamestate.round_over
                ((g.factories.set m.source none).set 0
                  (some (factory.take_tile m.tile).2)) = true
            · rw [if_pos hro] at h
              injection h with h
              subst h
              exact ⟨rfl, rfl, rfl, rfl, rfl, Or.inl ⟨rfl, hro, rfl⟩⟩
            · rw [if_neg hro] at h
              injection h with h
              subst h
              refine ⟨rfl, rfl, rfl, rfl, rfl, Or.inr ⟨rfl, ?_, rfl⟩⟩
              simp only [Bool.not_eq_true] at hro
              exact hro

theorem fp_place_tiles_in_row (b : PlayerBoard) (r0 : RowIndex) (t : Tile)
    (c : Nat) :
    (b.place_tiles_in_row r0 t c).first_player_tile = b.first_player_tile := by
  unfold PlayerBoard.place_tiles_in_row
  dsimp only
  cases hrow : b.rows r0 with
  | none => rfl
  | some tc => obtain ⟨t0, k⟩ := tc; rfl

theorem rows_place_tiles_in_row (b : PlayerBoard) (r0 : RowIndex) (t : Tile)
    (c : Nat) :
    (b.place_tiles_in_row r0 t c).wall = b.wall := by
  unfold PlayerBoard.place_tiles_in_row
  dsimp only
  cases hrow : b.rows r0 with
  | none => rfl
  | some tc => obtain ⟨t0, k⟩ := tc; rfl

/-- `place_tiles` sets the first-player flag when granted and never clears
it. -/
theorem place_tiles_fp (b : PlayerBoard) (d : Destination) (t : Tile)
    (c : Nat) (f : Bool) :
    (b.place_tiles d t c f).first_player_tile = (b.first_player_tile || f) := by
  unfold PlayerBoard.place_tiles
  cases f with
  | false =>
    rw [Bool.or_false]
    cases d with
    | Row r0 =>
      show ((b.place_tiles_in_row r0 t c).predict_score).first_player_tile = _
      rw [(fields_predict_score _).2.2.2.2, fp_place_tiles_in_row]
    | Floor => rfl
  | true =>
    rw [Bool.or_true]
    cases d with
    | Row r0 =>
      show ((({ b with first_player_tile := true } :
          PlayerBoard).place_tiles_in_row r0 t c).predict_score).first_player_tile = _
      rw [(fields_predict_score _).2.2.2.2, fp_place_tiles_in_row]
    | Floor => rfl

/-- A successful `play_move` conserves the total number of tiles in play. -/
theorem play_move_tile_count (g : Gamestate) (m : Move) (g' : Gamestate)
    (h : g.play_move m = some g') : g'.tile_count = g.tile_count := by
  obtain ⟨factory, board, centreSlot, hfac, hb, hcen, hboards, hfacs, hbag,
    hfp, hround, hstate⟩ := play_move_parts g m g' h
  unfold Gamestate.tile_count
  rw [hboards, hfacs, hbag, filterMap_id_map_total, filterMap_id_map_total]
  have hbsum := sum_map_set PlayerBoard.tile_count g.boards g.current_player
    board (board.place_tiles m.destination m.tile
      (factory.take_tile m.tile).1
      (g.first_player_tile && (m.source == 0))) hb
  rw [tile_count_place_tiles] at hbsum
  have htake := TileGroup.total_take_tile factory m.tile
  have hsum1 := sum_map_set optTotal g.factories m.source (some factory)
    none hfac
  cases centreSlot with
  | some centre =>
    dsimp only
    have hsum2 := sum_map_set optTotal (g.factories.set m.source none) 0
      (some centre) (some (centre.merge (factory.take_tile m.tile).2)) hcen
    simp only [optTotal, TileGroup.total_merge] at hsum1 hsum2
    omega
  | none =>
    dsimp only
    have hsum2 := sum_map_set optTotal (g.factories.set m.source none) 0
      none (some (factory.take_tile m.tile).2) hcen
    simp only [optTotal] at hsum1 hsum2
    omega

/-- A successful `play_move` keeps exactly one first-player token in play. -/
theorem play_move_fp_count (g : Gamestate) (m : Move) (g' : Gamestate)
    (h : g.play_move m = some g') (h1 : g.fp_count = 1) :
    g'.fp_count = 1 := by
  obtain ⟨factory, board, centreSlot, hfac, hb, hcen, hboards, hfacs, hbag,
    hfp, hround, hstate⟩ := play_move_parts g m g' h
  unfold Gamestate.fp_count at h1 ⊢
  rw [length_filter_eq_sum_map] at h1 ⊢
  rw [hboards, hfp]
  have hbsum := sum_map_set
    (fun b : PlayerBoard => if b.first_player_tile then 1 else 0)
    g.boards g.current_player board
    (board.place_tiles m.destination m.tile
      (factory.take_tile m.tile).1
      (g.first_player_tile && (m.source == 0))) hb
  dsimp only at hbsum
  have hbfp := place_tiles_fp board m.destination m.tile
    (factory.take_tile m.tile).1 (g.first_player_tile && (m.source == 0))
  cases hgfp : (g.first_player_tile && (m.source == 0)) with
  | false =>
    rw [hgfp] at hbsum hbfp
    rw [Bool.or_false] at hbfp
    rw [hbfp] at hbsum
    simp only [Bool.false_eq_true, if_false]
    omega
  | true =>
    have hg : g.first_player_tile = true := by
      cases hgf : g.first_player_tile
      · rw [hgf, Bool.false_and] at hgfp
        exact Bool.noConfusion hgfp
      · rfl
    rw [hg, if_pos rfl] at h1
    have hzero := sum_eq_zero_mem
      (l := g.boards.map
        (fun b : PlayerBoard => if b.first_player_tile = true then 1 else 0))
      (by omega)
    have hbmem : board ∈ g.boards := List.get?_mem hb
    have hbz : (if board.first_player_tile = true then 1 else 0) = 0 :=
      hzero _ (List.mem_map_of_mem
        (fun b : PlayerBoard => if b.first_player_tile = true then 1 else 0)
        hbmem)
    have hbfalse : board.first_player_tile = false := by
      rcases Bool.eq_false_or_eq_true board.first_player_tile with hbf | hbf
      · rw [hbf] at hbz
        simp at hbz
      · exact hbf
    rw [hgfp] at hbsum hbfp
    rw [Bool.or_true] at hbfp
    rw [hbfp, hbfalse] at hbsum
    simp only [eq_self_iff_true, if_true, Bool.false_eq_true, if_false]
      at hbsum ⊢
    omega

/-! ### Structure of `get_moves` -/

/-- A move produced by `get_moves` names a non-empty factory slot, carries
that slot's full count of its colour, and its destination is either the
floor or a row validated by `can_play_tile`. -/
theorem get_moves_mem (g : Gamestate) (ms : List Move) (m : Move)
    (h1 : g.get_moves = some ms) (h2 : m ∈ ms) :
    ∃ board factory,
      g.boards.get? g.current_player = some board ∧
      g.factories.get? m.source = some (some factory) ∧
      m.count = factory.get m.tile ∧ 0 < m.count ∧
      (m.destination = Destination.Floor ∨
       ∃ row pr, m.destination = Destination.Row row ∧
         board.can_play_tile row m.tile m.count = some pr) := by
  unfold Gamestate.get_moves at h1
  cases hb : g.boards.get? g.current_player with
  | none => rw [hb] at h1; exact Option.noConfusion h1
  | some board =>
    rw [hb] at h1
    dsimp only at h1
    injection h1 with h1
    subst h1
    rw [List.mem_flatMap] at h2
    obtain ⟨sf, hsf, hm⟩ := h2
    rw [List.mem_filterMap] at hsf
    obtain ⟨p, hp, hpe⟩ := hsf
    cases hp2 : p.2 with
    | none => rw [hp2] at hpe; exact Option.noConfusion hpe
    | some f =>
      rw [hp2] at hpe
      injection hpe with hpe
      subst hpe
      have hget : g.factories.get? p.1 = some p.2 := by
        rw [List.get?_eq_getElem?]
        exact List.mem_enum_iff_getElem?.mp hp
      rw [hp2] at hget
      rw [List.mem_flatMap] at hm
      obtain ⟨tile, htile, hmm⟩ := hm
      dsimp only at hmm
      by_cases hc : 0 < f.get tile
      · rw [if_pos hc] at hmm
        rw [List.mem_append] at hmm
        rcases hmm with hrow | hfl
        · rw [List.mem_filterMap] at hrow
          obtain ⟨row, _, hre⟩ := hrow
          cases hcp : board.can_play_tile row tile (f.get tile) with
          | none => rw [hcp] at hre; exact Option.noConfusion hre
          | some pr =>
            rw [hcp] at hre
            injection hre with hre
            subst hre
            exact ⟨board, f, rfl, hget, rfl, hc,
              Or.inr ⟨row, pr, rfl, hcp⟩⟩
        · rw [List.mem_singleton] at hfl
          subst hfl
          exact ⟨board, f, rfl, hget, rfl, hc, Or.inl rfl⟩
      · rw [if_neg hc] at hmm
        exact absurd hmm (List.not_mem_nil m)

/-- A move produced by `get_moves` can always be played (no panic). -/
theorem play_move_defined (g : Gamestate) (ms : List Move) (m : Move)
    (h1 : g.get_moves = some ms) (h2 : m ∈ ms) :
    ∃ g', g.play_move m = some g' := by
  obtain ⟨board, factory, hb, hfac, _, _, _⟩ := get_moves_mem g ms m h1 h2
  have hlt : m.source < g.factories.length := by
    by_contra hh
    rw [List.get?_eq_none.mpr (by omega)] at hfac
    exact Option.noConfusion hfac
  unfold Gamestate.play_move
  rw [hfac]
  dsimp only
  rw [hb]
  dsimp only
  cases hcen : (g.factories.set m.source none).get? 0 with
  | none =>
    rw [List.get?_eq_none, List.length_set] at hcen
    omega
  | some centreSlot =>
    dsimp only
    cases centreSlot <;> dsimp only <;> split_ifs <;> exact ⟨_, rfl⟩

/-! ### Preservation of `RowsFree` -/

theorem place_tiles_floor_frame (b : PlayerBoard) (t : Tile) (c : Nat)
    (f : Bool) :
    (b.place_tiles Destination.Floor t c f).rows = b.rows ∧
    (b.place_tiles Destination.Floor t c f).wall = b.wall := by
  cases f <;> exact ⟨rfl, rfl⟩

theorem place_tiles_row_rows_free (b : PlayerBoard) (row : RowIndex)
    (t : Tile) (c : Nat) (f : Bool) (pr : Nat × Nat)
    (hcp : b.can_play_tile row t c = some pr) (hfree : b.RowsFree) :
    (b.place_tiles (Destination.Row row) t c f).RowsFree := by
  have key : ∀ b0 : PlayerBoard, b0.rows = b.rows → b0.wall = b.wall →
      (b0.place_tiles_in_row row t c).RowsFree := by
    intro b0 hr hw
    unfold PlayerBoard.place_tiles_in_row
    dsimp only
    cases hrow : b0.rows row with
    | none =>
      have hav : b.wall.cell_available row t = true := by
        unfold PlayerBoard.can_play_tile at hcp
        rw [hr] at hrow
        rw [hrow] at hcp
        dsimp only at hcp
        by_cases hav : b.wall.cell_available row t
        · exact hav
        · rw [if_neg hav] at hcp
          exact Option.noConfusion hcp
      intro r t' c' hr'
      dsimp only at hr' ⊢
      by_cases hrr : r = row
      · subst hrr
        rw [if_pos rfl] at hr'
        injection hr' with hr'
        injection hr' with hr1 hr2
        subst hr1
        rw [hw]
        exact hav
      · rw [if_neg hrr] at hr'
        rw [hw]
        exact hfree r t' c' (hr ▸ hr')
    | some tc =>
      obtain ⟨t0, k⟩ := tc
      intro r t' c' hr'
      dsimp only at hr' ⊢
      by_cases hrr : r = row
      · subst hrr
        rw [if_pos rfl] at hr'
        injection hr' with hr'
        injection hr' with hr1 hr2
        subst hr1
        rw [hw]
        exact hfree r t0 k (hr ▸ hrow)
      · rw [if_neg hrr] at hr'
        rw [hw]
        exact hfree r t' c' (hr ▸ hr')
  cases f with
  | false => exact key b rfl rfl
  | true => exact key { b with first_player_tile := true } rfl rfl

/-- A `get_moves`-validated `play_move` preserves the `RowsFree` invariant
on every board. -/
theorem play_move_rows_free (g : Gamestate) (ms : List Move) (m : Move)
    (g' : Gamestate)
    (h1 : g.get_moves = some ms) (h2 : m ∈ ms)
    (h : g.play_move m = some g')
    (hfree : ∀ b ∈ g.boards, b.RowsFree) :
    ∀ b ∈ g'.boards, b.RowsFree := by
  obtain ⟨factory, board, centreSlot, hfac, hb, hcen, hboards, hfacs, hbag,
    hfp, hround, hstate⟩ := play_move_parts g m g' h
  obtain ⟨board2, factory2, hb2, hfac2, hcount, hpos, hdest⟩ :=
    get_moves_mem g ms m h1 h2
  rw [hb] at hb2
  injection hb2 with hb2
  rw [hfac] at hfac2
  injection hfac2 with hfac2
  injection hfac2 with hfac2
  rw [hboards]
  intro b' hb'
  rcases List.mem_or_eq_of_mem_set hb' with hmem | heq
  · exact hfree b' hmem
  · subst heq
    have hbfree := hfree board (List.get?_mem hb)
    have hcnt : (factory.take_tile m.tile).1 = m.count := by
      rw [hcount, hfac2]
      rfl
    rcases hdest with hfl | ⟨row, pr, hrow, hcp⟩
    · rw [hfl]
      obtain ⟨hrr, hww⟩ := place_tiles_floor_frame board m.tile
        (factory.take_tile m.tile).1
        (g.first_player_tile && (m.source == 0))
      intro r t' c' hr'
      rw [hrr] at hr'
      unfold Wall.cell_available
      rw [show (board.place_tiles Destination.Floor m.tile
          (factory.take_tile m.tile).1
          (g.first_player_tile && (m.source == 0))).wall = board.wall
        from hww]
      exact hbfree r t' c' hr'
    · rw [hrow]
      rw [hcnt]
      exact place_tiles_row_rows_free board row m.tile m.count
        (g.first_player_tile && (m.source == 0)) pr
        (hb2 ▸ hcp) hbfree

/-! ### Conservation of tiles through `Gamestate::end_round` -/

theorem boards_end_round_sums (bs : List PlayerBoard) :
    (∀ b ∈ bs, b.RowsFree) →
    ((((bs.map PlayerBoard.end_round).map (fun r => r.1.tile_count)).sum
        + ((bs.map PlayerBoard.end_round).map (fun r => r.2.1.total)).sum
      = (bs.map PlayerBoard.tile_count).sum)
    ∧ (∀ r ∈ bs.map PlayerBoard.end_round, r.1.RowsFree)) := by
  induction bs with
  | nil => intro _; exact ⟨rfl, by simp⟩
  | cons b bs ih =>
    intro h
    obtain ⟨hc, hf⟩ := ih (fun x hx => h x (List.mem_cons_of_mem b hx))
    obtain ⟨hc0, hf0⟩ :=
      playerboard_end_round_conserve b (h b (List.mem_cons_self b bs))
    constructor
    · simp only [List.map_cons, List.sum_cons]
      omega
    · intro r hr
      rcases List.mem_cons.mp hr with rfl | hr
      · exact hf0
      · exact hf r hr

theorem foldl_merge_total (l : List (PlayerBoard × TileGroup × Bool)) :
    ∀ acc : TileGroup,
      (l.foldl (fun acc r => acc.merge r.2.1) acc).total
        = acc.total + (l.map (fun r => r.2.1.total)).sum := by
  induction l with
  | nil => intro acc; simp
  | cons x l ih =>
    intro acc
    simp only [List.foldl_cons, List.map_cons, List.sum_cons, ih,
      TileGroup.total_merge]
    omega

theorem tile_count_end_game (b : PlayerBoard) :
    (b.end_game).tile_count = b.tile_count := rfl

theorem map_end_game_sum (bs : List PlayerBoard) :
    ((bs.map PlayerBoard.end_game).map PlayerBoard.tile_count).sum
      = (bs.map PlayerBoard.tile_count).sum := by
  induction bs with
  | nil => rfl
  | cons b bs ih =>
    simp only [List.map_cons, List.sum_cons, ih, tile_count_end_game]

theorem rows_free_end_game (b : PlayerBoard) (h : b.RowsFree) :
    (b.end_game).RowsFree := h

theorem fp_end_round_board (b : PlayerBoard) :
    (b.end_round).1.first_player_tile = false := rfl

theorem fp_end_game (b : PlayerBoard) :
    (b.end_game).first_player_tile = b.first_player_tile := rfl

theorem round_over_mem (fs : List (Option TileGroup))
    (h : Gamestate.round_over fs = true) : ∀ f ∈ fs, optTotal f = 0 := by
  unfold Gamestate.round_over at h
  rw [List.all_eq_true] at h
  intro f hf
  have hb := h f hf
  cases f with
  | none => rfl
  | some tg => simpa [optTotal] using hb

theorem fp_count_deal (g : Gamestate) : (g.deal).fp_count = g.fp_count := rfl

/-- `end_round` conserves tiles, preserves the board invariant, never lands
back in `RoundEnd`, and leaves exactly one first-player token in play. -/
theorem end_round_master (g : Gamestate)
    (hfree : ∀ b ∈ g.boards, b.RowsFree)
    (hempty : Gamestate.round_over g.factories = true) :
    (g.end_round).tile_count = g.tile_count ∧
    (∀ b ∈ (g.end_round).boards, b.RowsFree) ∧
    (g.end_round).state ≠ State.RoundEnd ∧
    (g.end_round).fp_count = 1 := by
  obtain ⟨hsum, hfree'⟩ := boards_end_round_sums g.boards hfree
  have hbag := foldl_merge_total (g.boards.map PlayerBoard.end_round) g.tilebag
  unfold Gamestate.end_round
  dsimp only
  by_cases hend : ((g.boards.map PlayerBoard.end_round).any (fun r => r.2.2)
      || (g.round == 10)) = true
  · rw [if_pos hend]
    refine ⟨?_, ?_, fun hcon => State.noConfusion hcon, ?_⟩
    · unfold Gamestate.tile_count
      dsimp only
      rw [hbag]
      have hmm : ((((g.boards.map PlayerBoard.end_round).map
            (fun r => r.1)).map PlayerBoard.end_game).map
              PlayerBoard.tile_count).sum
          = (((g.boards.map PlayerBoard.end_round).map
            (fun r => r.1)).map PlayerBoard.tile_count).sum :=
        map_end_game_sum _
      rw [hmm]
      have hswap : (((g.boards.map PlayerBoard.end_round).map
            (fun r => r.1)).map PlayerBoard.tile_count).sum
          = ((g.boards.map PlayerBoard.end_round).map
            (fun r => r.1.tile_count)).sum := by
        rw [List.map_map]
        rfl
      rw [hswap]
      omega
    · intro b hb
      rw [List.mem_map] at hb
      obtain ⟨b1, hb1, rfl⟩ := hb
      rw [List.mem_map] at hb1
      obtain ⟨r, hr, rfl⟩ := hb1
      exact rows_free_end_game _ (hfree' r hr)
    · unfold Gamestate.fp_count
      dsimp only
      rw [length_filter_eq_sum_map]
      rw [if_pos rfl]
      have hz : ∀ x ∈ (((g.boards.map PlayerBoard.end_round).map
          (fun r => r.1)).map PlayerBoard.end_game).map
            (fun b : PlayerBoard => if b.first_player_tile then 1 else 0),
          x = (0 : Nat) := by
        intro x hx
        rw [List.mem_map] at hx
        obtain ⟨b, hb, rfl⟩ := hx
        rw [List.mem_map] at hb
        obtain ⟨b1, hb1, rfl⟩ := hb
        rw [List.mem_map] at hb1
        obtain ⟨r, hr4, rfl⟩ := hb1
        rw [List.mem_map] at hr4
        obtain ⟨b0, _, rfl⟩ := hr4
        rw [fp_end_game, fp_end_round_board]
        simp
      have hzz := List.sum_eq_zero hz
      omega
  · rw [if_neg hend]
    have hdeal := deal_tile_count
      (g := { g with
        current_player := Gamestate.fp_scan g.boards.enum g.current_player,
        first_player_tile := true,
        boards := (g.boards.map PlayerBoard.end_round).map (fun r => r.1),
        tilebag := (g.boards.map PlayerBoard.end_round).foldl
          (fun acc r => acc.merge r.2.1) g.tilebag })
      (by
        intro f hf
        exact round_over_mem g.factories hempty f (List.mem_of_mem_tail hf))
    refine ⟨?_, ?_, ?_, ?_⟩
    · rw [hdeal]
      unfold Gamestate.tile_count
      dsimp only
      rw [hbag]
      have hswap : (((g.boards.map PlayerBoard.end_round).map
            (fun r => r.1)).map PlayerBoard.tile_count).sum
          = ((g.boards.map PlayerBoard.end_round).map
            (fun r => r.1.tile_count)).sum := by
        rw [List.map_map]
        rfl
      rw [hswap]
      omega
    · rw [(deal_frame _).1]
      intro b hb
      rw [List.mem_map] at hb
      obtain ⟨r, hr1, rfl⟩ := hb
      exact hfree' r hr1
    · rw [(deal_frame _).2.2.2.1]
      exact fun hcon => State.noConfusion hcon
    · rw [fp_count_deal]
      unfold Gamestate.fp_count
      dsimp only
      rw [length_filter_eq_sum_map]
      rw [if_pos rfl]
      have hz : ∀ x ∈ ((g.boards.map PlayerBoard.end_round).map
          (fun r => r.1)).map
            (fun b : PlayerBoard => if b.first_player_tile then 1 else 0),
          x = (0 : Nat) := by
        intro x hx
        rw [List.mem_map] at hx
        obtain ⟨b, hb, rfl⟩ := hx
        rw [List.mem_map] at hb
        obtain ⟨r, hr4, rfl⟩ := hb
        rw [List.mem_map] at hr4
        obtain ⟨b0, _, rfl⟩ := hr4
        rw [fp_end_round_board]
        simp
      have hzz := List.sum_eq_zero hz
      omega

/-! ### The freshly constructed game -/

theorem sum_replicate_zero {α : Type} (f : α → Nat) (x : α) (hx : f x = 0)
    (n : Nat) : ((List.replicate n x).map f).sum = 0 := by
  induction n with
  | zero => rfl
  | succ k ih => simp [List.replicate_succ, ih, hx]

/-- A freshly constructed game holds 100 tiles, empty boards, state
`RoundActive` and exactly one first-player token. -/
theorem new_master (P F : Nat) (rng : List Nat) (fp0 : Nat) :
    (Gamestate.new P F rng fp0).tile_count = 100 ∧
    (∀ b ∈ (Gamestate.new P F rng fp0).boards, b.RowsFree) ∧
    (Gamestate.new P F rng fp0).state = State.RoundActive ∧
    (Gamestate.new P F rng fp0).fp_count = 1 := by
  have htail : ∀ f ∈ (List.replicate F (none : Option TileGroup)).tail,
      optTotal f = 0 := by
    intro f hf
    rw [List.eq_of_mem_replicate (List.mem_of_mem_tail hf)]
    rfl
  refine ⟨?_, ?_, rfl, ?_⟩
  · unfold Gamestate.new
    rw [deal_tile_count _ htail]
    unfold Gamestate.tile_count
    dsimp only
    rw [filterMap_id_map_total]
    rw [sum_replicate_zero PlayerBoard.tile_count PlayerBoard.default rfl]
    rw [sum_replicate_zero optTotal none rfl]
    rfl
  · intro b hb
    unfold Gamestate.new at hb
    rw [(deal_frame _).1] at hb
    dsimp only at hb
    rw [List.eq_of_mem_replicate hb]
    intro r t c hr
    exact Option.noConfusion hr
  · rw [show Gamestate.new P F rng fp0
        = Gamestate.deal _ from rfl, fp_count_deal]
    unfold Gamestate.fp_count
    dsimp only
    rw [length_filter_eq_sum_map]
    rw [sum_replicate_zero _ PlayerBoard.default rfl]
    rfl

/-! ### The reachable-state invariant -/

/-- The inductive invariant along every reachable trajectory: 100 tiles in
play, every non-empty pattern line's wall cell free, factories empty
whenever the state is `RoundEnd`, and exactly one first-player token. -/
theorem reachable_inv (g : Gamestate) (h : Reachable g) :
    g.tile_count = 100 ∧ (∀ b ∈ g.boards, b.RowsFree) ∧
    (g.state = State.RoundEnd → Gamestate.round_over g.factories = true) ∧
    g.fp_count = 1 := by
  induction h with
  | init rng fp0 =>
    simp only [Gamestate.new_2_player_with_seed]
    obtain ⟨h1, h2, h3, h4⟩ := new_master 2 6 rng fp0
    refine ⟨h1, h2, ?_, h4⟩
    intro hcon
    rw [h3] at hcon
    exact State.noConfusion hcon
  | play hre hact hgm hmem hpm ih =>
    obtain ⟨h1, h2, h3, h4⟩ := ih
    refine ⟨?_, ?_, ?_, ?_⟩
    · rw [play_move_tile_count _ _ _ hpm, h1]
    · exact play_move_rows_free _ _ _ _ hgm hmem hpm h2
    · obtain ⟨f, b, c, _, _, _, _, _, _, _, _, hstate⟩ :=
        play_move_parts _ _ _ hpm
      rcases hstate with ⟨_, hro, _⟩ | ⟨hs, _, _⟩
      · intro _; exact hro
      · intro hcon
        rw [hs, hact] at hcon
        exact State.noConfusion hcon
    · exact play_move_fp_count _ _ _ hpm h4
  | round hre hrend ih =>
    obtain ⟨h1, h2, h3, h4⟩ := ih
    obtain ⟨e1, e2, e3, e4⟩ := end_round_master _ h2 (h3 hrend)
    exact ⟨by rw [e1, h1], e2, fun hcon => absurd hcon e3, e4⟩

theorem round_over_iff (fs : List (Option TileGroup)) :
    Gamestate.round_over fs = true ↔ ∀ f ∈ fs, optTotal f = 0 := by
  constructor
  · exact round_over_mem fs
  · intro h
    unfold Gamestate.round_over
    rw [List.all_eq_true]
    intro f hf
    have hz := h f hf
    cases f with
    | none => rfl
    | some tg =>
      simp only [optTotal] at hz
      simp [hz]

theorem any_map_end_round (bs : List PlayerBoard) :
    ((bs.map (fun b => (b.end_round).2.2)).any (fun x => x))
      = ((bs.map PlayerBoard.end_round).any (fun r => r.2.2)) := by
  induction bs with
  | nil => rfl
  | cons b bs ih => simp [List.any_cons, ih]

/-- Witness for C1 at a concrete input: on the default board with one tile
available, row Two is a legal destination. -/
theorem spec_C1_witness :
    (PlayerBoard.default.can_play_tile RowIndex.Two Tile.Blue 1).isSome := by
  have h := spec_C1 PlayerBoard.default RowIndex.Two Tile.Blue 1 (by decide)
  exact h.1.mpr (Or.inl ⟨rfl, by decide⟩)

/-- A one-player game state used as a concrete witness input. -/
def witness_state : Gamestate :=
  ⟨[PlayerBoard.default], TileGroup.new_empty, [some TileGroup.new_empty],
   true, [], 0, 1, State.RoundActive⟩

/-- Witness for C9 at a concrete input: `predict_score` leaves the concrete
state untouched. -/
theorem spec_C9_witness :
    (witness_state.predict_score (Move.new_to_floor 0 Tile.Blue 1)).1
      = witness_state :=
  (spec_C9 witness_state (Move.new_to_floor 0 Tile.Blue 1) (by decide)).1


/-- C2: on every reachable 2-player game state — freshly constructed, or
obtained by playing `get_moves`-produced moves in `RoundActive` and calling
`end_round` in `RoundEnd` — the total tile count across bag, factory slots
and boards is 100. -/
theorem spec_C2 (g : Gamestate) (h : Reachable g) : g.tile_count = 100 :=
  (reachable_inv g h).1

/-- Witness for C2: the freshly constructed game. -/
theorem spec_C2_witness :
    (Gamestate.new_2_player_with_seed [] 0).tile_count = 100 :=
  spec_C2 _ (Reachable.init [] 0)

/-- C3: on every reachable 2-player game state, exactly one first-player
token is in play: the boards holding the token and the global flag together
count exactly one. -/
theorem spec_C3 (g : Gamestate) (h : Reachable g) : g.fp_count = 1 :=
  (reachable_inv g h).2.2.2

/-- Witness for C3: the freshly constructed game. -/
theorem spec_C3_witness :
    (Gamestate.new_2_player_with_seed [] 0).fp_count = 1 :=
  spec_C3 _ (Reachable.init [] 0)

/-- C4: in `RoundActive`, a `get_moves`-produced move always plays
(no panic); the result is `RoundEnd` iff every factory slot holds zero
tiles after the move, in which case `current_player` is not advanced;
otherwise the state stays `RoundActive` and `current_player` becomes
`(current_player + 1) mod P`. -/
theorem spec_C4 (g : Gamestate) (ms : List Move) (m : Move)
    (hact : g.state = State.RoundActive)
    (hgm : g.get_moves = some ms) (hmem : m ∈ ms) :
    ∃ g', g.play_move m = some g' ∧
      ((g'.state = State.RoundEnd ↔ ∀ f ∈ g'.factories, optTotal f = 0) ∧
      (g'.state = State.RoundEnd → g'.current_player = g.current_player) ∧
      (g'.state ≠ State.RoundEnd → g'.state = State.RoundActive ∧
        g'.current_player = (g.current_player + 1) % g.boards.length)) := by
  obtain ⟨g', hpm⟩ := play_move_defined g ms m hgm hmem
  refine ⟨g', hpm, ?_⟩
  obtain ⟨f, b, c, _, _, _, _, _, _, _, _, hstate⟩ :=
    play_move_parts g m g' hpm
  rcases hstate with ⟨hs, hro, hcp⟩ | ⟨hs, hro, hcp⟩
  · exact ⟨⟨fun _ => (round_over_iff g'.factories).mp hro, fun _ => hs⟩,
      fun _ => hcp, fun hcon => absurd hs hcon⟩
  · rw [hs, hact]
    refine ⟨⟨?_, ?_⟩, ?_, ?_⟩
    · intro hcon
      exact State.noConfusion hcon
    · intro hall
      rw [(round_over_iff g'.factories).mpr hall] at hro
      exact Bool.noConfusion hro
    · intro hcon
      exact State.noConfusion hcon
    · intro _
      exact ⟨rfl, hcp⟩

/-- The freshly constructed game with the zero oracle stream: the concrete
state used by the C4 witness. -/
def gw : Gamestate := Gamestate.new_2_player_with_seed [] 0

/-- The move list of `gw` and its first move. -/
def msw : List Move := (gw.get_moves).getD []

def mw : Move := msw.getD 0 (Move.new_to_floor 0 Tile.Blue 0)

/-- Witness for C4 at the concrete fresh game and its first legal move. -/
theorem spec_C4_witness :
    ∃ g', gw.play_move mw = some g' ∧
      ((g'.state = State.RoundEnd ↔ ∀ f ∈ g'.factories, optTotal f = 0) ∧
      (g'.state = State.RoundEnd → g'.current_player = gw.current_player) ∧
      (g'.state ≠ State.RoundEnd → g'.state = State.RoundActive ∧
        g'.current_player = (gw.current_player + 1) % gw.boards.length)) :=
  spec_C4 gw msw mw (by decide) (by decide) (by decide)

/-- C5: `end_round` called in `RoundEnd` moves to `GameEnd` iff some
board's round resolution reports a full wall row or the round counter has
reached 10; otherwise a new round is dealt, the round counter increases by
exactly one, and the state is `RoundActive`. -/
theorem spec_C5 (g : Gamestate) (h : g.state = State.RoundEnd) :
    ((g.end_round).state = State.GameEnd ↔
      ((g.boards.map (fun b => (b.end_round).2.2)).any (fun x => x) = true
        ∨ g.round = 10)) ∧
    ((g.end_round).state ≠ State.GameEnd →
      (g.end_round).state = State.RoundActive ∧
      (g.end_round).round = g.round + 1) := by
  unfold Gamestate.end_round
  dsimp only
  by_cases hend : ((g.boards.map PlayerBoard.end_round).any (fun r => r.2.2)
      || (g.round == 10)) = true
  · rw [if_pos hend]
    constructor
    · constructor
      · intro _
        rw [Bool.or_eq_true] at hend
        rcases hend with ha | hb
        · left
          rw [any_map_end_round]
          exact ha
        · right
          have hb' : g.round = 10 := by simpa using hb
          exact hb'
      · intro _
        rfl
    · intro hcon
      exact absurd rfl hcon
  · rw [if_neg hend]
    constructor
    · constructor
      · intro hcon
        rw [(deal_frame _).2.2.2.1] at hcon
        exact State.noConfusion hcon
      · intro hor
        exfalso
        apply hend
        rw [Bool.or_eq_true]
        rcases hor with ha | hb
        · left
          rw [any_map_end_round] at ha
          exact ha
        · right
          rw [hb]
          rfl
    · intro _
      refine ⟨(deal_frame _).2.2.2.1, ?_⟩
      rw [(deal_frame _).2.2.2.2]

/-- A concrete state in `RoundEnd`: the C5 witness input. -/
def gw5 : Gamestate :=
  ⟨[PlayerBoard.default], TileGroup.new_empty, [some TileGroup.new_empty],
   true, [], 0, 1, State.RoundEnd⟩

/-- Witness for C5 at a concrete `RoundEnd` state. -/
theorem spec_C5_witness :
    ((gw5.end_round).state = State.GameEnd ↔
      ((gw5.boards.map (fun b => (b.end_round).2.2)).any (fun x => x) = true
        ∨ gw5.round = 10)) ∧
    ((gw5.end_round).state ≠ State.GameEnd →
      (gw5.end_round).state = State.RoundActive ∧
      (gw5.end_round).round = gw5.round + 1) :=
  spec_C5 gw5 rfl

end AzulTiles
